import Mathlib

/- Shallow embedding of the incremental daily-revenue aggregation models of
   this repository:
     src/models/metrics/agg_daily_revenue_py_v3.py          (the v3 engine)
     src/models/metrics/agg_daily_revenue_with_holidays_pyarrow.py

   Modelling conventions.
   Dates are days since the Unix epoch (Int): Python date arithmetic
   `max_date - timedelta(days = n)` becomes integer subtraction `m - n`.
   Monetary amounts are carried in an exact integral domain (Int) standing in
   for the decimal amounts; binary floating-point rounding is out of scope.
   A pandas DataFrame is a list of rows; `df[df.c >= x]` is `List.filter`;
   `groupby(k).agg(...)` produces one row per distinct key, keys sorted
   ascending (pandas sorts group keys by default); `sort_values` is a sort by
   the key column; `cumsum` is a running prefix sum down the list. -/

namespace DbtIncrementalAgg

/- Day number (days since 1970-01-01) of a Gregorian date with positive year,
   mirroring how Python `datetime.date` values are compared and shifted by
   whole days. Standard civil-calendar conversion. -/
def daysFromCivil (y m d : Int) : Int :=
  let yy : Int := if m ≤ 2 then y - 1 else y
  let era : Int := yy / 400
  let yoe : Int := yy - era * 400
  let mp : Int := (m + 9) % 12
  let doy : Int := (153 * mp + 2) / 5 + d - 1
  let doe : Int := yoe * 365 + yoe / 4 - yoe / 100 + doy
  era * 146097 + doe - 719468

/- One raw order event, a row of the upstream relation stg_orders_v2. -/
structure RawEvent where
  order_id : Nat
  buyer_id : Nat
  order_date : Int
  revenue : Int
deriving DecidableEq, Repr

/- One row of the daily aggregate before the running total is attached:
   the output schema of the groupby/agg step (order_date, daily_revenue,
   daily_orders, daily_buyers). -/
structure AggRow where
  order_date : Int
  daily_revenue : Int
  daily_orders : Nat
  daily_buyers : Nat
deriving DecidableEq, Repr

/- One persisted row of the model's output table (5 columns, line 258-266 of
   agg_daily_revenue_py_v3.py). -/
structure OutRow where
  order_date : Int
  daily_revenue : Int
  daily_orders : Nat
  daily_buyers : Nat
  running_revenue : Int
deriving DecidableEq, Repr

/- The distinct order dates of an event list, ascending: the group keys
   produced by `combined_df.groupby("order_date")`. -/
def datesOf (evs : List RawEvent) : List Int :=
  List.insertionSort (· ≤ ·) (evs.map (·.order_date)).dedup

/- The aggregate row the groupby/agg step produces for one date `d`:
   `revenue: sum`, `order_id: nunique`, `buyer_id: nunique`
   (lines 64-80 and 214-230 of agg_daily_revenue_py_v3.py). -/
def aggRow (evs : List RawEvent) (d : Int) : AggRow where
  order_date := d
  daily_revenue := ((evs.filter (fun e => e.order_date = d)).map (·.revenue)).sum
  daily_orders := ((evs.filter (fun e => e.order_date = d)).map (·.order_id)).dedup.length
  daily_buyers := ((evs.filter (fun e => e.order_date = d)).map (·.buyer_id)).dedup.length

/- The whole groupby/agg step: one row per distinct date, keys ascending. -/
def aggregate_daily_revenue (evs : List RawEvent) : List AggRow :=
  (datesOf evs).map (aggRow evs)

/- PyArrow UDF of the v3 model (lines 39-94): keep only events with
   `order_date >= reprocess_from_date`, then aggregate daily revenue. -/
def aggregate_daily_revenue_incremental_pyarrow
    (evs : List RawEvent) (reprocess_from_date : Int) : List AggRow :=
  aggregate_daily_revenue (evs.filter (fun e => reprocess_from_date ≤ e.order_date))

/- Sorting a frame of aggregate rows by the date column
   (`sort_values("order_date")`, line 189 / 233). -/
def sortByDate (rows : List AggRow) : List AggRow :=
  List.insertionSort (fun a b => a.order_date ≤ b.order_date) rows

/- `cumsum` seeded with `acc`, turning aggregate rows (in frame order) into
   output rows whose running_revenue is the running sum so far. -/
def cumsumFrom (acc : Int) : List AggRow → List OutRow
  | [] => []
  | r :: rs =>
    { order_date := r.order_date, daily_revenue := r.daily_revenue,
      daily_orders := r.daily_orders, daily_buyers := r.daily_buyers,
      running_revenue := acc + r.daily_revenue } :: cumsumFrom (acc + r.daily_revenue) rs

/- Lines 189-190 / 233-234: sort by date, then
   `df["running_revenue"] = df["daily_revenue"].cumsum()`. -/
def addRunningRevenue (rows : List AggRow) : List OutRow :=
  cumsumFrom 0 (sortByDate rows)

/- Column projection dropping running_revenue, as in line 144-145 where the
   existing frame is cut down to the four non-derived columns. -/
def dropRunning (r : OutRow) : AggRow :=
  { order_date := r.order_date, daily_revenue := r.daily_revenue,
    daily_orders := r.daily_orders, daily_buyers := r.daily_buyers }

/- `date(1900, 1, 1)` (line 129), the sentinel lower bound used when no
   existing data is found. -/
def sentinel_date : Int :=
  daysFromCivil 1900 1 1

/- `existing_df["order_date"].max()` over the persisted table, `none` when the
   table is empty (lines 109-119: an empty frame yields max_date = None). -/
def maxDate (store : List OutRow) : Option Int :=
  match store.map (·.order_date) with
  | [] => none
  | d :: ds => some (ds.foldl max d)

/- Window resolution (lines 108-129). `storeRead = none` models the
   `except Exception` branch where the persisted table cannot be read at all;
   in both that case and the empty-table case max_date is None and the
   sentinel is used, otherwise reprocess_from = max_date - window days. -/
def resolveFrom (storeRead : Option (List OutRow)) (reprocess_window_days : Int) : Int :=
  match storeRead with
  | none => sentinel_date
  | some store =>
    match maxDate store with
    | some m => m - reprocess_window_days
    | none => sentinel_date

/- Lines 137-146: the existing persisted rows fed into the merge, filtered to
   `order_date < reprocess_from` and cut down to the four aggregate columns.
   (The `sort_values` on line 146 is re-done on the combined frame on line 189
   before it is ever consumed, so it is not modelled separately.) -/
def carriedForward (store : List OutRow) (reprocess_from : Int) : List AggRow :=
  (store.filter (fun r => r.order_date < reprocess_from)).map dropRunning

/- The incremental branch of the v3 model (lines 102-201): resolve the window,
   aggregate the fresh window from the event stream, carry forward the
   strictly-older persisted rows, concatenate fresh-first (line 184), sort by
   date and recompute the running total over the combined frame.
   `storeRead = none` models a persisted table that cannot be read (both
   try/except blocks, lines 108-122 and 137-165, swallow the exception). -/
def modelIncremental (storeRead : Option (List OutRow)) (evs : List RawEvent)
    (reprocess_window_days : Int) : List OutRow :=
  let reprocess_from := resolveFrom storeRead reprocess_window_days
  let new_agg := aggregate_daily_revenue_incremental_pyarrow evs reprocess_from
  let existing := carriedForward (storeRead.getD []) reprocess_from
  addRunningRevenue (new_agg ++ existing)

/- The full-refresh branch of the v3 model (lines 203-255): aggregate all
   events, sort by date, cumulative running revenue; an empty event stream
   yields the empty frame (lines 245-255). -/
def modelFullRefresh (evs : List RawEvent) : List OutRow :=
  addRunningRevenue (aggregate_daily_revenue evs)

/- One row of the upstream relation stg_trips_v1 consumed by the holidays
   PyArrow model. -/
structure TripEvent where
  trip_id : Nat
  trip_date : Int
  total_amount : Int
  passenger_count : Int
deriving DecidableEq, Repr

/- One output row of agg_daily_revenue_with_holidays_pyarrow.py
   (schema on lines 162-172). -/
structure HolidayRow where
  trip_date : Int
  is_holiday : Bool
  holiday_name : Option String
  daily_revenue : Int
  daily_trips : Nat
  daily_passengers : Int
  running_revenue : Int
deriving DecidableEq, Repr

/- Distinct trip dates ascending: the `groupby("trip_date")` keys. -/
def tripDatesOf (trips : List TripEvent) : List Int :=
  List.insertionSort (· ≤ ·) (trips.map (·.trip_date)).dedup

/- The daily aggregation with running cumsum of the holidays model
   (lines 117-142): per date, `total_amount: sum`, `trip_id: count` (a plain
   row count, not a distinct count), `passenger_count: sum`, `is_holiday` and
   `holiday_name` taken from the first row of the group, which equal the
   per-date lookups `isHol d` / `holName d` since every row of the group has
   that date. `isHol`/`holName` stand for the external `holidays` package. -/
def holidayCumsum (isHol : Int → Bool) (holName : Int → Option String)
    (trips : List TripEvent) (acc : Int) : List Int → List HolidayRow
  | [] => []
  | d :: ds =>
    let grp := trips.filter (fun t => t.trip_date = d)
    let daily := (grp.map (·.total_amount)).sum
    { trip_date := d, is_holiday := isHol d, holiday_name := holName d,
      daily_revenue := daily,
      daily_trips := grp.length,
      daily_passengers := (grp.map (·.passenger_count)).sum,
      running_revenue := acc + daily } :: holidayCumsum isHol holName trips (acc + daily) ds

/- The PyArrow UDF `enrich_with_holidays_pyarrow` (lines 85-176): a generator
   that yields one aggregated batch when the upstream produced any rows and
   yields nothing at all otherwise (with zero upstream rows `all_dfs` stays
   empty, or holds only empty frames whose aggregated table has no batches, so
   in either case no batch is yielded). `none` models the empty generator. -/
def enrich_with_holidays_pyarrow (isHol : Int → Bool) (holName : Int → Option String)
    (trips : List TripEvent) : Option (List HolidayRow) :=
  match trips with
  | [] => none
  | _ => some (holidayCumsum isHol holName trips 0 (tripDatesOf trips))

/- The holidays model body (lines 181-200): `first_batch = next(batch_iter)`
   is called with no default, so an empty generator raises StopIteration and
   the run fails; `none` is that failure, `some rows` the returned reader. -/
def modelWithHolidays (isHol : Int → Bool) (holName : Int → Option String)
    (trips : List TripEvent) : Option (List HolidayRow) :=
  enrich_with_holidays_pyarrow isHol holName trips

/- Helper lemmas about the cumsum step. -/

theorem cumsumFrom_map_dropRunning (acc : Int) (l : List AggRow) :
    (cumsumFrom acc l).map dropRunning = l := by
  induction l generalizing acc with
  | nil => rfl
  | cons x xs ih => simp [cumsumFrom, dropRunning, ih]

theorem dropRunning_mem_of_mem_cumsumFrom {r : OutRow} {acc : Int} {l : List AggRow}
    (h : r ∈ cumsumFrom acc l) : dropRunning r ∈ l :=
  cumsumFrom_map_dropRunning acc l ▸ List.mem_map_of_mem dropRunning h

theorem cumsumFrom_filter_sum (acc D : Int) (l : List AggRow) :
    (((cumsumFrom acc l).filter (fun r => r.order_date ≤ D)).map (·.daily_revenue)).sum
      = ((l.filter (fun a => a.order_date ≤ D)).map (·.daily_revenue)).sum := by
  induction l generalizing acc with
  | nil => rfl
  | cons x xs ih =>
    by_cases h : x.order_date ≤ D <;>
      simp [cumsumFrom, List.filter_cons, h, ih]

theorem cumsumFrom_running {l : List AggRow} (acc : Int)
    (hs : l.Pairwise fun a b => a.order_date < b.order_date) :
    ∀ r ∈ cumsumFrom acc l,
      r.running_revenue =
        acc + ((l.filter (fun a => a.order_date ≤ r.order_date)).map (·.daily_revenue)).sum := by
  induction l generalizing acc with
  | nil => intro r hr; simp [cumsumFrom] at hr
  | cons x xs ih =>
    rw [List.pairwise_cons] at hs
    intro r hr
    rcases List.mem_cons.mp hr with rfl | hr
    · have hxs : xs.filter (fun a => a.order_date ≤ x.order_date) = [] := by
        refine List.filter_eq_nil_iff.mpr fun a ha => ?_
        simpa using not_le.mpr (hs.1 a ha)
      simp [List.filter_cons, hxs]
    · have hdr : x.order_date < r.order_date := by
        have hm : dropRunning r ∈ xs := dropRunning_mem_of_mem_cumsumFrom hr
        exact hs.1 _ hm
      have hstep := ih (acc + x.daily_revenue) hs.2 r hr
      rw [hstep, List.filter_cons_of_pos (by simpa using le_of_lt hdr)]
      simp [add_assoc]

/- Helper lemmas about sorting by date. -/

instance : IsTotal AggRow (fun a b => a.order_date ≤ b.order_date) :=
  ⟨fun a b => Int.le_total a.order_date b.order_date⟩

instance : IsTrans AggRow (fun a b => a.order_date ≤ b.order_date) :=
  ⟨fun _ _ _ h h2 => le_trans h h2⟩

theorem sortByDate_sorted (rows : List AggRow) :
    (sortByDate rows).Pairwise fun a b => a.order_date ≤ b.order_date :=
  List.sorted_insertionSort _ rows

theorem sortByDate_perm (rows : List AggRow) : List.Perm (sortByDate rows) rows :=
  List.perm_insertionSort _ rows

theorem pairwise_lt_of_le_of_nodup {l : List AggRow}
    (h1 : l.Pairwise fun a b => a.order_date ≤ b.order_date)
    (h2 : (l.map (·.order_date)).Nodup) :
    l.Pairwise fun a b => a.order_date < b.order_date := by
  have h2l : l.Pairwise fun a b => a.order_date ≠ b.order_date := List.pairwise_map.mp h2
  exact (h1.and h2l).imp fun h => lt_of_le_of_ne h.1 h.2

theorem eq_of_perm_of_pairwise_lt {α : Type} (key : α → Int) :
    ∀ {l₁ l₂ : List α}, List.Perm l₁ l₂ →
      l₁.Pairwise (fun a b => key a < key b) →
      l₂.Pairwise (fun a b => key a < key b) → l₁ = l₂ := by
  intro l₁
  induction l₁ with
  | nil => intro l₂ hp _ _; exact (hp.symm.eq_nil).symm
  | cons a t ih =>
    intro l₂ hp h1 h2
    cases l₂ with
    | nil => exact absurd hp.eq_nil (by simp)
    | cons b t₂ =>
      have hab : a = b := by
        by_contra hne
        have ha : a ∈ b :: t₂ := hp.mem_iff.mp (List.mem_cons_self a t)
        have hb : b ∈ a :: t := hp.mem_iff.mpr (List.mem_cons_self b t₂)
        rcases List.mem_cons.mp ha with h | h
        · exact hne h
        · have hba : key b < key a := (List.pairwise_cons.mp h2).1 a h
          rcases List.mem_cons.mp hb with h' | h'
          · exact hne h'.symm
          · exact absurd ((List.pairwise_cons.mp h1).1 b h') (not_lt.mpr hba.le)
      subst hab
      rw [ih hp.cons_inv (List.pairwise_cons.mp h1).2 (List.pairwise_cons.mp h2).2]

theorem eq_of_pairwise_lt_of_mem_iff {l₁ l₂ : List Int}
    (h1 : l₁.Pairwise (· < ·)) (h2 : l₂.Pairwise (· < ·))
    (hm : ∀ x, x ∈ l₁ ↔ x ∈ l₂) : l₁ = l₂ := by
  have n1 : l₁.Nodup := h1.imp ne_of_lt
  have n2 : l₂.Nodup := h2.imp ne_of_lt
  exact eq_of_perm_of_pairwise_lt id ((List.perm_ext_iff_of_nodup n1 n2).mpr hm) h1 h2

/- Helper lemmas about the group keys (the distinct sorted dates). -/

theorem datesOf_nodup (evs : List RawEvent) : (datesOf evs).Nodup :=
  (List.perm_insertionSort _ _).nodup_iff.mpr (evs.map (·.order_date)).nodup_dedup

theorem datesOf_pairwise_lt (evs : List RawEvent) : (datesOf evs).Pairwise (· < ·) := by
  have hle : (datesOf evs).Pairwise (· ≤ ·) := List.sorted_insertionSort _ _
  exact (hle.and (datesOf_nodup evs)).imp fun h => lt_of_le_of_ne h.1 h.2

theorem mem_datesOf {d : Int} {evs : List RawEvent} :
    d ∈ datesOf evs ↔ ∃ e ∈ evs, e.order_date = d := by
  unfold datesOf
  rw [(List.perm_insertionSort _ _).mem_iff, List.mem_dedup, List.mem_map]

theorem aggregate_map_date (evs : List RawEvent) :
    (aggregate_daily_revenue evs).map (·.order_date) = datesOf evs := by
  unfold aggregate_daily_revenue
  rw [List.map_map]
  exact List.map_id _ ▸ List.map_congr_left fun d _ => rfl

theorem aggregate_pairwise_lt (evs : List RawEvent) :
    (aggregate_daily_revenue evs).Pairwise fun a b => a.order_date < b.order_date := by
  have h := datesOf_pairwise_lt evs
  rw [← aggregate_map_date] at h
  exact List.pairwise_map.mp h

theorem mem_aggregate_iff {r : AggRow} {evs : List RawEvent} :
    r ∈ aggregate_daily_revenue evs ↔ r.order_date ∈ datesOf evs ∧ r = aggRow evs r.order_date := by
  unfold aggregate_daily_revenue
  constructor
  · intro h
    rcases List.mem_map.mp h with ⟨d, hd, rfl⟩
    exact ⟨hd, rfl⟩
  · rintro ⟨hd, hr⟩
    exact hr ▸ List.mem_map_of_mem _ hd

/- Helper lemmas about the carried-forward history and the merged frame. -/

theorem carriedForward_map_date (store : List OutRow) (f : Int) :
    (carriedForward store f).map (·.order_date)
      = (store.filter (fun r => r.order_date < f)).map (·.order_date) := by
  unfold carriedForward
  rw [List.map_map]
  exact List.map_congr_left fun r _ => rfl

theorem carriedForward_date_lt {store : List OutRow} {f : Int} :
    ∀ a ∈ carriedForward store f, a.order_date < f := by
  intro a ha
  rcases List.mem_map.mp ha with ⟨r, hr, rfl⟩
  simpa using (List.mem_filter.mp hr).2

theorem carriedForward_nodup {store : List OutRow} {f : Int}
    (h : (store.map (·.order_date)).Nodup) :
    ((carriedForward store f).map (·.order_date)).Nodup := by
  rw [carriedForward_map_date]
  exact h.sublist ((List.filter_sublist store).map _)

theorem windowAgg_date_le {evs : List RawEvent} {f : Int} :
    ∀ a ∈ aggregate_daily_revenue_incremental_pyarrow evs f, f ≤ a.order_date := by
  intro a ha
  rcases (mem_aggregate_iff.mp ha).1 |> mem_datesOf.mp with ⟨e, he, hd⟩
  have := (List.mem_filter.mp he).2
  simp only [decide_eq_true_eq] at this
  exact hd ▸ this

theorem windowAgg_nodup (evs : List RawEvent) (f : Int) :
    ((aggregate_daily_revenue_incremental_pyarrow evs f).map (·.order_date)).Nodup := by
  unfold aggregate_daily_revenue_incremental_pyarrow
  rw [aggregate_map_date]
  exact datesOf_nodup _

theorem combined_nodup {store : List OutRow} {evs : List RawEvent} {f : Int}
    (hstore : (store.map (·.order_date)).Nodup) :
    ((aggregate_daily_revenue_incremental_pyarrow evs f ++ carriedForward store f).map
      (·.order_date)).Nodup := by
  rw [List.map_append]
  refine List.Nodup.append (windowAgg_nodup evs f) (carriedForward_nodup hstore) ?_
  intro d hd1 hd2
  rcases List.mem_map.mp hd1 with ⟨a, ha, rfl⟩
  rcases List.mem_map.mp hd2 with ⟨b, hb, hdb⟩
  have h1 : f ≤ a.order_date := windowAgg_date_le a ha
  have h2 : b.order_date < f := carriedForward_date_lt b hb
  exact absurd (hdb ▸ h1) (not_le.mpr h2)

/- The prefix-sum property of the sort-then-cumsum step, for any frame whose
   date column has no duplicates. -/
theorem addRunningRevenue_prefix {rows : List AggRow}
    (hnd : (rows.map (·.order_date)).Nodup) :
    ∀ r ∈ addRunningRevenue rows,
      r.running_revenue =
        (((addRunningRevenue rows).filter (fun a => a.order_date ≤ r.order_date)).map
          (·.daily_revenue)).sum := by
  intro r hr
  unfold addRunningRevenue at hr ⊢
  have hnd2 : ((sortByDate rows).map (·.order_date)).Nodup :=
    ((sortByDate_perm rows).map _).nodup_iff.mpr hnd
  have hlt := pairwise_lt_of_le_of_nodup (sortByDate_sorted rows) hnd2
  rw [cumsumFrom_filter_sum]
  have h := cumsumFrom_running 0 hlt r hr
  rw [h, zero_add]

theorem addRunningRevenue_map_dropRunning (rows : List AggRow) :
    (addRunningRevenue rows).map dropRunning = sortByDate rows :=
  cumsumFrom_map_dropRunning 0 (sortByDate rows)

theorem mem_addRunningRevenue_of_mem {rows : List AggRow} {a : AggRow} (ha : a ∈ rows) :
    ∃ r ∈ addRunningRevenue rows, dropRunning r = a := by
  have hs : a ∈ sortByDate rows := (sortByDate_perm rows).mem_iff.mpr ha
  rw [← addRunningRevenue_map_dropRunning] at hs
  rcases List.mem_map.mp hs with ⟨r, hr, hra⟩
  exact ⟨r, hr, hra⟩

theorem dropRunning_mem_of_mem_addRunningRevenue {rows : List AggRow} {r : OutRow}
    (hr : r ∈ addRunningRevenue rows) : dropRunning r ∈ rows := by
  have := dropRunning_mem_of_mem_cumsumFrom hr
  exact (sortByDate_perm rows).mem_iff.mp this

theorem addRunningRevenue_sorted (rows : List AggRow) :
    (addRunningRevenue rows).Pairwise fun a b => a.order_date ≤ b.order_date := by
  have h := sortByDate_sorted rows
  rw [← addRunningRevenue_map_dropRunning] at h
  exact (List.pairwise_map.mp h).imp fun hab => hab

/- Filtering events by a predicate on the date commutes with aggregation:
   this is what makes the windowed aggregate a restriction of the full one. -/

theorem datesOf_filter (evs : List RawEvent) (p : Int → Bool) :
    datesOf (evs.filter (fun e => p e.order_date)) = (datesOf evs).filter p := by
  refine eq_of_pairwise_lt_of_mem_iff (datesOf_pairwise_lt _)
    (List.Pairwise.sublist (List.filter_sublist _) (datesOf_pairwise_lt evs)) fun d => ?_
  rw [mem_datesOf, List.mem_filter, mem_datesOf]
  constructor
  · rintro ⟨e, he, rfl⟩
    have hf := List.mem_filter.mp he
    exact ⟨⟨e, hf.1, rfl⟩, hf.2⟩
  · rintro ⟨⟨e, he, rfl⟩, hp⟩
    exact ⟨e, List.mem_filter.mpr ⟨he, hp⟩, rfl⟩

theorem aggRow_filter (evs : List RawEvent) (p : Int → Bool) (d : Int) (hp : p d = true) :
    aggRow (evs.filter (fun e => p e.order_date)) d = aggRow evs d := by
  unfold aggRow
  have h : (evs.filter (fun e => p e.order_date)).filter (fun e => e.order_date = d)
      = evs.filter (fun e => e.order_date = d) := by
    rw [List.filter_filter]
    refine List.filter_congr fun e _ => ?_
    by_cases hd : e.order_date = d
    · simp [hd, hp]
    · simp [hd]
  rw [h]

theorem aggregate_filter (evs : List RawEvent) (p : Int → Bool) :
    aggregate_daily_revenue (evs.filter (fun e => p e.order_date))
      = (aggregate_daily_revenue evs).filter (fun r => p r.order_date) := by
  unfold aggregate_daily_revenue
  rw [datesOf_filter]
  have hR : ((datesOf evs).map (aggRow evs)).filter (fun r => p r.order_date)
      = ((datesOf evs).filter p).map (aggRow evs) := by
    induction datesOf evs with
    | nil => rfl
    | cons d ds ih =>
      by_cases hd : p d = true
      · simp only [List.map_cons, List.filter_cons]
        rw [ih]
        simp [aggRow, hd]
      · simp only [List.map_cons, List.filter_cons]
        rw [ih]
        simp [aggRow, hd]
  rw [hR]
  exact List.map_congr_left fun d hd => aggRow_filter evs p d (List.mem_filter.mp hd).2

/- Re-running addRunningRevenue on a permuted frame with duplicate-free dates
   gives the same output: the sort normalises the order. -/
theorem addRunningRevenue_perm_congr {rows₁ rows₂ : List AggRow}
    (hperm : List.Perm rows₁ rows₂) (hnd : (rows₂.map (·.order_date)).Nodup) :
    addRunningRevenue rows₁ = addRunningRevenue rows₂ := by
  unfold addRunningRevenue
  have hnd1 : (rows₁.map (·.order_date)).Nodup := ((hperm.map _)).nodup_iff.mpr hnd
  have h1 : (sortByDate rows₁).Pairwise fun a b => a.order_date < b.order_date :=
    pairwise_lt_of_le_of_nodup (sortByDate_sorted _)
      (((sortByDate_perm rows₁).map _).nodup_iff.mpr hnd1)
  have h2 : (sortByDate rows₂).Pairwise fun a b => a.order_date < b.order_date :=
    pairwise_lt_of_le_of_nodup (sortByDate_sorted _)
      (((sortByDate_perm rows₂).map _).nodup_iff.mpr hnd)
  rw [eq_of_perm_of_pairwise_lt (fun a : AggRow => a.order_date)
    ((sortByDate_perm rows₁).trans (hperm.trans (sortByDate_perm rows₂).symm)) h1 h2]

theorem sortByDate_eq_of_pairwise_le {rows : List AggRow}
    (h : rows.Pairwise fun a b => a.order_date ≤ b.order_date) : sortByDate rows = rows :=
  List.Sorted.insertionSort_eq h

theorem map_dropRunning_filter_lt (l : List OutRow) (f : Int) :
    (l.filter (fun r => r.order_date < f)).map dropRunning
      = (l.map dropRunning).filter (fun a => a.order_date < f) := by
  induction l with
  | nil => rfl
  | cons x xs ih =>
    by_cases h : x.order_date < f <;> simp [List.filter_cons, dropRunning, h, ih]

theorem windowAgg_eq_filter (evs : List RawEvent) (f : Int) :
    aggregate_daily_revenue_incremental_pyarrow evs f
      = (aggregate_daily_revenue evs).filter (fun r => f ≤ r.order_date) :=
  aggregate_filter evs (fun d => f ≤ d)

/-- C9: idempotence. Running the v3 engine a second time over the same event
source, with the first run's full-refresh output persisted as the store for
the second (incremental) run, returns a value-identical row set whatever
window length is configured: splitting the aggregate at the window boundary
and re-sorting is the identity, and the running total is recomputed to the
same prefix sums. -/
theorem engine_idempotent_on_rerun (evs : List RawEvent) (N : Int) :
    modelIncremental (some (modelFullRefresh evs)) evs N = modelFullRefresh evs := by
  have hagg_sorted : (aggregate_daily_revenue evs).Pairwise
      fun a b => a.order_date ≤ b.order_date :=
    (aggregate_pairwise_lt evs).imp le_of_lt
  have hnd : ((aggregate_daily_revenue evs).map (·.order_date)).Nodup := by
    rw [aggregate_map_date]; exact datesOf_nodup evs
  simp only [modelIncremental]
  set f := resolveFrom (some (modelFullRefresh evs)) N with hf
  have hcarr : carriedForward (Option.getD (some (modelFullRefresh evs)) []) f
      = (aggregate_daily_revenue evs).filter (fun a => a.order_date < f) := by
    show carriedForward (modelFullRefresh evs) f = _
    unfold carriedForward modelFullRefresh
    rw [map_dropRunning_filter_lt, addRunningRevenue_map_dropRunning,
      sortByDate_eq_of_pairwise_le hagg_sorted]
  rw [hcarr, windowAgg_eq_filter]
  have h2 : (aggregate_daily_revenue evs).filter (fun a => a.order_date < f)
      = (aggregate_daily_revenue evs).filter
          (fun a => ! (fun r : AggRow => decide (f ≤ r.order_date)) a) := by
    refine List.filter_congr fun a _ => ?_
    by_cases h : f ≤ a.order_date
    · simp [not_lt.mpr h, h]
    · simp [not_le.mp h, h]
  have hperm : List.Perm
      ((aggregate_daily_revenue evs).filter (fun r => f ≤ r.order_date)
        ++ (aggregate_daily_revenue evs).filter (fun a => a.order_date < f))
      (aggregate_daily_revenue evs) := by
    rw [h2]
    exact List.filter_append_perm _ _
  exact addRunningRevenue_perm_congr hperm hnd

/- Recomputing the cumsum over a frame that already satisfies the prefix-sum
   invariant reproduces the frame. -/
theorem cumsumFrom_map_dropRunning_eq_self {l : List OutRow} :
    ∀ acc : Int, l.Pairwise (fun a b => a.order_date < b.order_date) →
    (∀ r ∈ l, r.running_revenue =
      acc + ((l.filter (fun a => a.order_date ≤ r.order_date)).map (·.daily_revenue)).sum) →
    cumsumFrom acc (l.map dropRunning) = l := by
  induction l with
  | nil => intro acc _ _; rfl
  | cons x xs ih =>
    intro acc hp hinv
    rw [List.pairwise_cons] at hp
    have hxrun : x.running_revenue = acc + x.daily_revenue := by
      have hx := hinv x (List.mem_cons_self x xs)
      rw [List.filter_cons_of_pos (by simp)] at hx
      have hxs : xs.filter (fun a => a.order_date ≤ x.order_date) = [] :=
        List.filter_eq_nil_iff.mpr fun a ha => by simpa using not_le.mpr (hp.1 a ha)
      rw [hxs] at hx
      simpa using hx
    simp only [List.map_cons, cumsumFrom]
    congr 1
    · cases x
      simp only [dropRunning] at hxrun ⊢
      simp_all
    · refine ih (acc + x.daily_revenue) hp.2 fun r hr => ?_
      have h := hinv r (List.mem_cons_of_mem x hr)
      rw [List.filter_cons_of_pos (by simpa using (hp.1 r hr).le)] at h
      rw [h]
      simp [add_assoc]

theorem addRunningRevenue_map_date (rows : List AggRow) :
    (addRunningRevenue rows).map (·.order_date) = (sortByDate rows).map (·.order_date) := by
  have h := congrArg (List.map (·.order_date)) (addRunningRevenue_map_dropRunning rows)
  rw [List.map_map] at h
  exact h

/- Facts about the maximum persisted date. -/

theorem foldl_max_le_init : ∀ (l : List Int) (d : Int), d ≤ l.foldl max d
  | [], d => le_refl d
  | x :: xs, d => le_trans (le_max_left d x) (foldl_max_le_init xs (max d x))

theorem mem_le_foldl_max : ∀ (l : List Int) (d a : Int), a ∈ l → a ≤ l.foldl max d
  | x :: xs, d, a, h => by
    rcases List.mem_cons.mp h with rfl | h
    · exact le_trans (le_max_right d a) (foldl_max_le_init xs (max d a))
    · exact mem_le_foldl_max xs (max d x) a h

theorem le_maxDate {store : List OutRow} {M : Int} (h : maxDate store = some M) :
    ∀ r ∈ store, r.order_date ≤ M := by
  intro r hr
  have hm : r.order_date ∈ store.map (·.order_date) := List.mem_map_of_mem _ hr
  unfold maxDate at h
  cases hl : store.map (·.order_date) with
  | nil => rw [hl] at hm; cases hm
  | cons d ds =>
    rw [hl] at h hm
    simp only [Option.some.injEq] at h
    rcases List.mem_cons.mp hm with he | hmm
    · exact h ▸ he ▸ foldl_max_le_init ds r.order_date
    · exact h ▸ mem_le_foldl_max ds d _ hmm

/-- C1: for every run of the v3 model — bootstrap/full-refresh or incremental
windowed merge (with a store holding at most one row per date, the table's
primary-key invariant) — every returned row's running_revenue equals the sum
of daily_revenue over all returned rows with date less than or equal to its
own: the prefix sum spans the entire combined set, never just the window. -/
theorem prefix_sum_spans_entire_merged_set (evs : List RawEvent) (N : Int)
    (storeRead : Option (List OutRow))
    (hstore : ((storeRead.getD []).map (·.order_date)).Nodup) :
    (∀ r ∈ modelFullRefresh evs,
      r.running_revenue = (((modelFullRefresh evs).filter
        (fun a => a.order_date ≤ r.order_date)).map (·.daily_revenue)).sum)
    ∧ ∀ r ∈ modelIncremental storeRead evs N,
      r.running_revenue = (((modelIncremental storeRead evs N).filter
        (fun a => a.order_date ≤ r.order_date)).map (·.daily_revenue)).sum := by
  constructor
  · intro r hr
    refine addRunningRevenue_prefix ?_ r hr
    rw [aggregate_map_date]
    exact datesOf_nodup evs
  · intro r hr
    exact addRunningRevenue_prefix (combined_nodup hstore) r hr

theorem prefix_sum_spans_entire_merged_set_witness :
    ((((some [⟨0, 30, 1, 2, 30⟩, ⟨20, 7, 1, 1, 37⟩] : Option (List OutRow)).getD []).map
      (·.order_date)).Nodup)
    ∧ ∀ r ∈ modelIncremental (some [⟨0, 30, 1, 2, 30⟩, ⟨20, 7, 1, 1, 37⟩]) [⟨9, 9, 20, 3⟩] 14,
      r.running_revenue =
        (((modelIncremental (some [⟨0, 30, 1, 2, 30⟩, ⟨20, 7, 1, 1, 37⟩]) [⟨9, 9, 20, 3⟩]
          14).filter (fun a => a.order_date ≤ r.order_date)).map (·.daily_revenue)).sum :=
  ⟨by decide,
    (prefix_sum_spans_entire_merged_set [⟨9, 9, 20, 3⟩] 14
      (some [⟨0, 30, 1, 2, 30⟩, ⟨20, 7, 1, 1, 37⟩]) (by decide)).2⟩

/-- C2: in every incremental run, the carried-forward existing rows fed into
the merge all have date strictly below the resolved window start: no persisted
row at or after window_start survives into the carry-forward side. -/
theorem boundary_exclusion_no_row_at_or_after_window_start
    (storeRead : Option (List OutRow)) (N : Int) (r : AggRow)
    (hr : r ∈ carriedForward (storeRead.getD []) (resolveFrom storeRead N)) :
    r.order_date < resolveFrom storeRead N :=
  carriedForward_date_lt r hr

theorem boundary_exclusion_no_row_at_or_after_window_start_witness :
    ((⟨0, 30, 1, 2⟩ : AggRow) ∈
      carriedForward ((some [⟨0, 30, 1, 2, 30⟩, ⟨20, 7, 1, 1, 37⟩] :
        Option (List OutRow)).getD [])
        (resolveFrom (some [⟨0, 30, 1, 2, 30⟩, ⟨20, 7, 1, 1, 37⟩]) 14))
    ∧ (0 : Int) < resolveFrom (some [⟨0, 30, 1, 2, 30⟩, ⟨20, 7, 1, 1, 37⟩]) 14 :=
  ⟨by decide,
    boundary_exclusion_no_row_at_or_after_window_start
      (some [⟨0, 30, 1, 2, 30⟩, ⟨20, 7, 1, 1, 37⟩]) 14 ⟨0, 30, 1, 2⟩ (by decide)⟩

/-- C3: in an incremental run against a store with at most one row per date,
the merged output has exactly one row per date, is ordered ascending by date,
and wherever a date is covered by the fresh window aggregate the fresh row
(not the persisted one) is the row appearing in the output; every fresh row
does appear. -/
theorem merge_unique_sorted_fresh_wins (store : List OutRow) (evs : List RawEvent) (N : Int)
    (hstore : (store.map (·.order_date)).Nodup) :
    ((modelIncremental (some store) evs N).map (·.order_date)).Nodup
    ∧ (modelIncremental (some store) evs N).Pairwise (fun a b => a.order_date ≤ b.order_date)
    ∧ (∀ r ∈ modelIncremental (some store) evs N,
        r.order_date ∈ (aggregate_daily_revenue_incremental_pyarrow evs
          (resolveFrom (some store) N)).map (·.order_date) →
        dropRunning r ∈ aggregate_daily_revenue_incremental_pyarrow evs
          (resolveFrom (some store) N))
    ∧ ∀ a ∈ aggregate_daily_revenue_incremental_pyarrow evs (resolveFrom (some store) N),
        ∃ r ∈ modelIncremental (some store) evs N, dropRunning r = a := by
  have hnd : (((aggregate_daily_revenue_incremental_pyarrow evs (resolveFrom (some store) N)
      ++ carriedForward store (resolveFrom (some store) N)).map (·.order_date))).Nodup :=
    combined_nodup hstore
  refine ⟨?_, ?_, ?_, ?_⟩
  · show ((addRunningRevenue _).map (·.order_date)).Nodup
    rw [addRunningRevenue_map_date]
    exact ((sortByDate_perm _).map _).nodup_iff.mpr hnd
  · exact addRunningRevenue_sorted _
  · intro r hr hd
    have hmem : dropRunning r ∈ aggregate_daily_revenue_incremental_pyarrow evs
        (resolveFrom (some store) N) ++ carriedForward store (resolveFrom (some store) N) :=
      dropRunning_mem_of_mem_addRunningRevenue hr
    rcases List.mem_append.mp hmem with h | h
    · exact h
    · exfalso
      rcases List.mem_map.mp hd with ⟨a, ha, hda⟩
      have h1 : resolveFrom (some store) N ≤ a.order_date := windowAgg_date_le a ha
      have h2 : r.order_date < resolveFrom (some store) N :=
        carriedForward_date_lt _ h
      exact absurd (hda ▸ h1) (not_le.mpr h2)
  · intro a ha
    exact mem_addRunningRevenue_of_mem (List.mem_append_left _ ha)

theorem merge_unique_sorted_fresh_wins_witness :
    (([⟨0, 30, 1, 2, 30⟩, ⟨20, 7, 1, 1, 37⟩] : List OutRow).map (·.order_date)).Nodup
    ∧ ((modelIncremental (some [⟨0, 30, 1, 2, 30⟩, ⟨20, 7, 1, 1, 37⟩]) [⟨9, 9, 20, 3⟩] 14).map
        (·.order_date)).Nodup :=
  ⟨by decide,
    (merge_unique_sorted_fresh_wins [⟨0, 30, 1, 2, 30⟩, ⟨20, 7, 1, 1, 37⟩] [⟨9, 9, 20, 3⟩] 14
      (by decide)).1⟩

/-- C4: with a non-empty store of maximum date M and lookback N the resolved
window start is M minus N days (so 2024-01-20 with N = 14 resolves to
2024-01-06, checked in the witness), and every persisted row at or after the
window start whose date still has an event in the source is replaced in the
output by the freshly recomputed aggregate of the windowed events. -/
theorem window_start_is_max_minus_lookback_and_replaces (store : List OutRow)
    (evs : List RawEvent) (N M : Int) (hM : maxDate store = some M) :
    resolveFrom (some store) N = M - N
    ∧ ∀ r ∈ store, M - N ≤ r.order_date → ∀ e ∈ evs, e.order_date = r.order_date →
        ∃ r2 ∈ modelIncremental (some store) evs N,
          r2.order_date = r.order_date
          ∧ dropRunning r2 =
              aggRow (evs.filter (fun e2 => M - N ≤ e2.order_date)) r.order_date := by
  have hres : resolveFrom (some store) N = M - N := by
    show (match maxDate store with | some m => m - N | none => sentinel_date) = M - N
    rw [hM]
  refine ⟨hres, fun r hr hge e he hed => ?_⟩
  have hdm : r.order_date ∈ datesOf (evs.filter (fun e2 => M - N ≤ e2.order_date)) :=
    mem_datesOf.mpr ⟨e, List.mem_filter.mpr ⟨he, by simpa [hed] using hge⟩, hed⟩
  have hfresh : aggRow (evs.filter (fun e2 => M - N ≤ e2.order_date)) r.order_date ∈
      aggregate_daily_revenue_incremental_pyarrow evs (resolveFrom (some store) N) := by
    rw [hres]
    exact List.mem_map_of_mem _ hdm
  rcases mem_addRunningRevenue_of_mem (List.mem_append_left
    (carriedForward store (resolveFrom (some store) N)) hfresh) with ⟨r2, hr2, hdrop⟩
  exact ⟨r2, hr2, congrArg AggRow.order_date hdrop, hdrop⟩

theorem window_start_is_max_minus_lookback_and_replaces_witness :
    maxDate [⟨daysFromCivil 2024 1 10, 5, 1, 1, 5⟩, ⟨daysFromCivil 2024 1 20, 3, 1, 1, 8⟩]
      = some (daysFromCivil 2024 1 20)
    ∧ resolveFrom (some [⟨daysFromCivil 2024 1 10, 5, 1, 1, 5⟩,
        ⟨daysFromCivil 2024 1 20, 3, 1, 1, 8⟩]) 14 = daysFromCivil 2024 1 6
    ∧ ∃ r2 ∈ modelIncremental
        (some [⟨daysFromCivil 2024 1 10, 5, 1, 1, 5⟩, ⟨daysFromCivil 2024 1 20, 3, 1, 1, 8⟩])
        [⟨7, 7, daysFromCivil 2024 1 10, 6⟩] 14,
        r2.order_date = daysFromCivil 2024 1 10
        ∧ dropRunning r2 =
            aggRow ([⟨7, 7, daysFromCivil 2024 1 10, 6⟩].filter
              (fun e2 => daysFromCivil 2024 1 20 - 14 ≤ e2.order_date))
              (daysFromCivil 2024 1 10) := by
  have h := window_start_is_max_minus_lookback_and_replaces
    [⟨daysFromCivil 2024 1 10, 5, 1, 1, 5⟩, ⟨daysFromCivil 2024 1 20, 3, 1, 1, 8⟩]
    [⟨7, 7, daysFromCivil 2024 1 10, 6⟩] 14 (daysFromCivil 2024 1 20) (by decide)
  exact ⟨by decide, h.1.trans (by decide),
    h.2 ⟨daysFromCivil 2024 1 10, 5, 1, 1, 5⟩ (by decide) (by decide)
      ⟨7, 7, daysFromCivil 2024 1 10, 6⟩ (by decide) rfl⟩

/-- C5 counterexample: with a negative lookback of -1 days the engine does not
fail; the incremental run completes and produces merge output (here: a store
row carried forward and the fresh event aggregated with the running total),
so no ConfigurationError is surfaced and output is produced. -/
theorem negative_lookback_produces_output_counterexample :
    modelIncremental (some [⟨10, 5, 1, 1, 5⟩]) [⟨1, 1, 12, 7⟩] (-1)
      = [⟨10, 5, 1, 1, 5⟩, ⟨12, 7, 1, 1, 12⟩] := by decide

/-- C5 amended: the v3 model never validates the lookback; with a negative
lookback N and a store of maximum date M the run proceeds, resolving
window_start to M - N (a date after M), so the entire persisted store is
carried forward and the merge output is still produced. -/
theorem negative_lookback_run_proceeds (store : List OutRow) (evs : List RawEvent)
    (N M : Int) (hN : N < 0) (hM : maxDate store = some M) :
    resolveFrom (some store) N = M - N
    ∧ M < M - N
    ∧ carriedForward store (resolveFrom (some store) N) = store.map dropRunning
    ∧ modelIncremental (some store) evs N =
        addRunningRevenue (aggregate_daily_revenue_incremental_pyarrow evs (M - N)
          ++ store.map dropRunning) := by
  have hres : resolveFrom (some store) N = M - N := by
    show (match maxDate store with | some m => m - N | none => sentinel_date) = M - N
    rw [hM]
  have hlt : M < M - N := by omega
  have hcarr : carriedForward store (resolveFrom (some store) N) = store.map dropRunning := by
    unfold carriedForward
    rw [hres]
    congr 1
    refine List.filter_eq_self.mpr fun r hr => ?_
    simpa using lt_of_le_of_lt (le_maxDate hM r hr) hlt
  refine ⟨hres, hlt, hcarr, ?_⟩
  show addRunningRevenue (aggregate_daily_revenue_incremental_pyarrow evs
      (resolveFrom (some store) N) ++ carriedForward store (resolveFrom (some store) N)) = _
  rw [hcarr, hres]

theorem negative_lookback_run_proceeds_witness :
    ((-1 : Int) < 0 ∧ maxDate [⟨10, 5, 1, 1, 5⟩] = some 10)
    ∧ carriedForward [⟨10, 5, 1, 1, 5⟩] (resolveFrom (some [⟨10, 5, 1, 1, 5⟩]) (-1))
        = [⟨10, 5, 1, 1, 5⟩].map dropRunning :=
  ⟨⟨by decide, by decide⟩,
    (negative_lookback_run_proceeds [⟨10, 5, 1, 1, 5⟩] [⟨1, 1, 12, 7⟩] (-1) 10
      (by decide) (by decide)).2.2.1⟩

/-- C6 counterexample: an incremental run whose persisted store cannot be read
at all (both reads throw, modelled by storeRead = none) does not fail: the
exceptions are swallowed and the run produces output as if the history were
empty, aggregating the full event stream from the 1900-01-01 sentinel. -/
theorem unreadable_store_produces_output_counterexample :
    modelIncremental none [⟨1, 1, 12, 7⟩] 14 = [⟨12, 7, 1, 1, 7⟩] := by decide

/-- C6 amended: in incremental mode an unreadable store is never fatal: the
except-branches set max_date to None and the existing rows to the empty
frame, so the run degrades to the bootstrap behaviour — for events on or
after the 1900-01-01 sentinel it returns exactly the full-refresh output. -/
theorem unreadable_store_treated_as_empty_history (evs : List RawEvent) (N : Int)
    (h : ∀ e ∈ evs, sentinel_date ≤ e.order_date) :
    modelIncremental none evs N = modelFullRefresh evs := by
  show addRunningRevenue _ = _
  have hfil : evs.filter (fun e => resolveFrom none N ≤ e.order_date) = evs :=
    List.filter_eq_self.mpr fun e he => by simpa using h e he
  unfold modelFullRefresh
  congr 1
  show aggregate_daily_revenue_incremental_pyarrow evs (resolveFrom none N)
      ++ carriedForward [] (resolveFrom none N) = _
  unfold aggregate_daily_revenue_incremental_pyarrow carriedForward
  rw [hfil]
  simp

theorem unreadable_store_treated_as_empty_history_witness :
    (∀ e ∈ ([⟨1, 1, 12, 7⟩] : List RawEvent), sentinel_date ≤ e.order_date)
    ∧ modelIncremental none [⟨1, 1, 12, 7⟩] 14 = modelFullRefresh [⟨1, 1, 12, 7⟩] :=
  ⟨by decide, unreadable_store_treated_as_empty_history [⟨1, 1, 12, 7⟩] 14 (by decide)⟩

/-- C7: the Daily Aggregator's output row for a date carries the summed
revenue of that date's events, the number of distinct order ids and the
number of distinct buyer ids among them (not raw row counts), and a date has
an output row iff it has at least one event; in particular two events sharing
an order_id on the same date contribute one order, not two (witness). -/
theorem daily_aggregator_sums_and_distinct_counts (evs : List RawEvent) (r : AggRow)
    (hr : r ∈ aggregate_daily_revenue evs) :
    r.daily_revenue = ((evs.filter (fun e => e.order_date = r.order_date)).map (·.revenue)).sum
    ∧ r.daily_orders =
        ((evs.filter (fun e => e.order_date = r.order_date)).map (·.order_id)).toFinset.card
    ∧ r.daily_buyers =
        ((evs.filter (fun e => e.order_date = r.order_date)).map (·.buyer_id)).toFinset.card
    ∧ ∀ d : Int, (∃ a ∈ aggregate_daily_revenue evs, a.order_date = d)
        ↔ ∃ e ∈ evs, e.order_date = d := by
  rcases mem_aggregate_iff.mp hr with ⟨_, hrq⟩
  refine ⟨?_, ?_, ?_, fun d => ⟨?_, ?_⟩⟩
  · conv_lhs => rw [hrq]
    rfl
  · conv_lhs => rw [hrq]
    exact (List.card_toFinset _).symm
  · conv_lhs => rw [hrq]
    exact (List.card_toFinset _).symm
  · rintro ⟨a, ha, rfl⟩
    have hm : a.order_date ∈ (aggregate_daily_revenue evs).map (·.order_date) :=
      List.mem_map_of_mem _ ha
    rw [aggregate_map_date] at hm
    exact mem_datesOf.mp hm
  · intro he
    exact ⟨aggRow evs d, List.mem_map_of_mem _ (mem_datesOf.mpr he), rfl⟩

theorem daily_aggregator_sums_and_distinct_counts_witness :
    ((⟨0, 30, 1, 2⟩ : AggRow) ∈ aggregate_daily_revenue [⟨1, 1, 0, 10⟩, ⟨1, 2, 0, 20⟩])
    ∧ (⟨0, 30, 1, 2⟩ : AggRow).daily_orders =
        ((([⟨1, 1, 0, 10⟩, ⟨1, 2, 0, 20⟩] : List RawEvent).filter
          (fun e => e.order_date = (⟨0, 30, 1, 2⟩ : AggRow).order_date)).map
            (·.order_id)).toFinset.card :=
  ⟨by decide,
    (daily_aggregator_sums_and_distinct_counts [⟨1, 1, 0, 10⟩, ⟨1, 2, 0, 20⟩] ⟨0, 30, 1, 2⟩
      (by decide)).2.1⟩

/-- C8: an incremental run in which no event falls inside the reprocessing
window does not error: given a store sorted strictly by date satisfying the
prefix-sum invariant, the merged result is exactly the carried-forward
history — the persisted rows strictly before the window start, every field
including running_revenue unchanged — and no new rows are appended. -/
theorem empty_window_returns_carried_history (store : List OutRow) (evs : List RawEvent)
    (N : Int)
    (hsorted : store.Pairwise fun a b => a.order_date < b.order_date)
    (hinv : ∀ r ∈ store, r.running_revenue =
      ((store.filter (fun a => a.order_date ≤ r.order_date)).map (·.daily_revenue)).sum)
    (hempty : evs.filter (fun e => resolveFrom (some store) N ≤ e.order_date) = []) :
    modelIncremental (some store) evs N
      = store.filter (fun r => r.order_date < resolveFrom (some store) N) := by
  set f := resolveFrom (some store) N with hf
  have hfresh : aggregate_daily_revenue_incremental_pyarrow evs f = [] := by
    unfold aggregate_daily_revenue_incremental_pyarrow
    rw [hempty]
    rfl
  show addRunningRevenue (aggregate_daily_revenue_incremental_pyarrow evs f
      ++ carriedForward store f) = _
  rw [hfresh, List.nil_append]
  unfold addRunningRevenue
  have hpair : (store.filter (fun r => r.order_date < f)).Pairwise
      (fun a b => a.order_date < b.order_date) :=
    List.Pairwise.sublist (List.filter_sublist _) hsorted
  have hsort : sortByDate (carriedForward store f) = carriedForward store f := by
    apply sortByDate_eq_of_pairwise_le
    exact List.pairwise_map.mpr (hpair.imp fun h => le_of_lt h)
  rw [hsort]
  show cumsumFrom 0 ((store.filter (fun r => r.order_date < f)).map dropRunning) = _
  apply cumsumFrom_map_dropRunning_eq_self 0 hpair
  intro r hr
  have hrd : r.order_date < f := by simpa using (List.mem_filter.mp hr).2
  rw [hinv r (List.mem_of_mem_filter hr), zero_add]
  congr 2
  rw [List.filter_filter]
  refine (List.filter_congr fun a _ => ?_).symm
  by_cases ha : a.order_date ≤ r.order_date
  · simp [ha, lt_of_le_of_lt ha hrd]
  · simp [ha]

theorem empty_window_returns_carried_history_witness :
    (([⟨1, 5, 1, 1, 5⟩, ⟨20, 3, 1, 1, 8⟩] : List OutRow).Pairwise
        fun a b => a.order_date < b.order_date)
    ∧ (([⟨2, 2, 2, 7⟩] : List RawEvent).filter
        (fun e => resolveFrom (some [⟨1, 5, 1, 1, 5⟩, ⟨20, 3, 1, 1, 8⟩]) 14 ≤ e.order_date)
          = [])
    ∧ modelIncremental (some [⟨1, 5, 1, 1, 5⟩, ⟨20, 3, 1, 1, 8⟩]) [⟨2, 2, 2, 7⟩] 14
        = ([⟨1, 5, 1, 1, 5⟩, ⟨20, 3, 1, 1, 8⟩] : List OutRow).filter
            (fun r => r.order_date < resolveFrom
              (some [⟨1, 5, 1, 1, 5⟩, ⟨20, 3, 1, 1, 8⟩]) 14) :=
  ⟨by decide, by decide,
    empty_window_returns_carried_history [⟨1, 5, 1, 1, 5⟩, ⟨20, 3, 1, 1, 8⟩] [⟨2, 2, 2, 7⟩] 14
      (by decide) (by decide) (by decide)⟩

/-- C10: code bug at the empty-input edge case. The v3 full-refresh path does
return the empty row set on an empty event stream, but the holidays PyArrow
variant does not: with zero upstream rows its batch generator yields nothing
and `next(batch_iter)` on line 192 (called with no default, unlike the v3
model's guarded `next(it, None)`) raises StopIteration instead of returning
an empty result. -/
theorem empty_input_v3_ok_holidays_raises :
    modelFullRefresh [] = []
    ∧ modelWithHolidays (fun _ => false) (fun _ => none) [] = none :=
  ⟨rfl, rfl⟩

end DbtIncrementalAgg
